import Mathlib

/-!
Shallow embedding of the experience-memory subsystem of energy_py
(src/energy_py/agents/memory.py, class Memory) and proofs about it.

Numeric values are modelled by `Flt`, a rational number together with a
not-a-number marker, since NaN produced by unguarded divisions and NaN
checks on batches are part of the behaviour under verification.  The
scaling collaborators (`Utils.scale_array`, `Utils.normalize`, numpy
standard deviation) live outside this repository and are kept abstract
as function parameters, exactly at their interface boundary.
-/

/-- Floating-point scalar as used by the memory: a rational value or the
IEEE not-a-number marker.  Infinities never arise on the verified code
paths (the only divisions by zero have zero numerators), so they are
folded into `nan`. -/
inductive Flt where
  | num (q : ℚ)
  | nan
deriving DecidableEq, Repr

namespace Flt

/-- Addition; NaN propagates as in IEEE arithmetic. -/
def add : Flt → Flt → Flt
  | num a, num b => num (a + b)
  | _, _ => nan

/-- Subtraction; NaN propagates. -/
def sub : Flt → Flt → Flt
  | num a, num b => num (a - b)
  | _, _ => nan

/-- Multiplication; NaN propagates. -/
def mul : Flt → Flt → Flt
  | num a, num b => num (a * b)
  | _, _ => nan

/-- Division; NaN propagates, and division by zero yields `nan`
(in the verified paths the numerator is zero whenever the denominator
is, where IEEE also yields NaN). -/
def div : Flt → Flt → Flt
  | num a, num b => if b = 0 then nan else num (a / b)
  | _, _ => nan

/-- numpy elementwise minimum semantics: NaN propagates. -/
def fmin : Flt → Flt → Flt
  | num a, num b => num (min a b)
  | _, _ => nan

/-- numpy elementwise maximum semantics: NaN propagates. -/
def fmax : Flt → Flt → Flt
  | num a, num b => num (max a b)
  | _, _ => nan

/-- The np.isnan test. -/
def isnan : Flt → Bool
  | num _ => false
  | nan => true

/-- Python truthiness of a float: zero is falsy; NaN is truthy. -/
def isZero : Flt → Bool
  | num q => q = 0
  | nan => false

end Flt

/-- Space descriptor interface (observation/action/reward spaces are
external collaborators): a dimensionality, used by `len(space)`, and the
low/high bounds used by reward normalization. -/
structure Space where
  dims : ℕ
  low : Flt
  high : Flt
deriving DecidableEq, Repr

/-- Configuration of a `Memory` instance: the constructor arguments of
class Memory in memory.py. -/
structure Config where
  observation_space : Space
  action_space : Space
  reward_space : Space
  discount : Flt
  memory_length : ℕ
  process_reward : String
  process_return : String
deriving DecidableEq, Repr

/-- The scaling collaborators inherited from `Utils`; their code is not
part of this repository, so they are abstract functions consumed at
their interface boundary. -/
structure Scalers where
  scale_array : List Flt → Space → List Flt
  normalize : Flt → Flt → Flt → Flt

/-- Raw experience record: (observation, action, reward,
next_observation, step, episode), indices 0..5 of the numpy record. -/
structure Experience where
  observation : List Flt
  action : List Flt
  reward : Flt
  next_observation : List Flt
  step : ℕ
  episode : ℕ
deriving DecidableEq, Repr

/-- Machine experience record: the scaled counterpart plus the Monte
Carlo return at index 6, stored as `none` (Python None) until
`calculate_returns` fills it in. -/
structure MachineExperience where
  observation : List Flt
  action : List Flt
  reward : Flt
  next_observation : List Flt
  step : ℕ
  episode : ℕ
  ret : Option Flt
deriving DecidableEq, Repr

/-- Placeholder record used only as the default of `List.getD`; every
access through it is guarded by an index bound. -/
def dummyME : MachineExperience :=
  ⟨[], [], Flt.nan, [], 0, 0, none⟩

/-- State of a `Memory`: the two parallel experience logs and the
agent_stats mapping. -/
structure Memory where
  experiences : List Experience
  machine_experiences : List MachineExperience
  agent_stats : List (String × List Flt)
deriving DecidableEq, Repr

/-- Memory.reset: clears both logs and agent_stats. -/
def Memory.reset (_mem : Memory) : Memory :=
  ⟨[], [], []⟩

/-- The empty memory produced by the constructor (which calls reset). -/
def initMemory : Memory :=
  ⟨[], [], []⟩

/-- numpy `arr.all()` over a vector of floats: true when every element
is truthy (nonzero); NaN counts as truthy. -/
def npAllTruthy (xs : List Flt) : Bool :=
  xs.all (fun x => !x.isZero)

/-- The terminal test of make_machine_experience, line 146 of memory.py:
`exp[3].all() == -999999`.  numpy compares the boolean result of
`.all()` numerically (True is 1, False is 0) with -999999. -/
def terminalCheck (xs : List Flt) : Bool :=
  decide ((if npAllTruthy xs then (1 : ℚ) else 0) = (-999999 : ℚ))

/-- Memory.make_machine_experience: scale observation and action,
process the reward, handle the terminal next observation, and leave the
return unset. -/
def make_machine_experience (cfg : Config) (sc : Scalers)
    (exp : Experience) : MachineExperience :=
  let scaled_obs := sc.scale_array exp.observation cfg.observation_space
  let scaled_action := sc.scale_array exp.action cfg.action_space
  let reward :=
    if cfg.process_reward = "normalize" then
      sc.normalize exp.reward cfg.reward_space.low cfg.reward_space.high
    else
      exp.reward
  let scaled_next_obs :=
    if terminalCheck exp.next_observation then
      exp.next_observation
    else
      sc.scale_array exp.next_observation cfg.observation_space
  ⟨scaled_obs, scaled_action, reward, scaled_next_obs,
    exp.step, exp.episode, none⟩

/-- Memory.add_experience: append the raw record and its machine
counterpart to the two logs. -/
def add_experience (cfg : Config) (sc : Scalers) (mem : Memory)
    (observation action : List Flt) (reward : Flt)
    (next_observation : List Flt) (step episode : ℕ) : Memory :=
  let exp : Experience :=
    ⟨observation, action, reward, next_observation, step, episode⟩
  let m_exp := make_machine_experience cfg sc exp
  { mem with
    experiences := mem.experiences ++ [exp]
    machine_experiences := mem.machine_experiences ++ [m_exp] }

/-- Arguments of one add_experience call. -/
structure AddCall where
  observation : List Flt
  action : List Flt
  reward : Flt
  next_observation : List Flt
  step : ℕ
  episode : ℕ
deriving DecidableEq, Repr

/-- Fold a sequence of add_experience calls over a memory state. -/
def applyAdds (cfg : Config) (sc : Scalers) (mem : Memory)
    (calls : List AddCall) : Memory :=
  calls.foldl
    (fun m c =>
      add_experience cfg sc m c.observation c.action c.reward
        c.next_observation c.step c.episode)
    mem

lemma add_experience_lengths (cfg : Config) (sc : Scalers) (mem : Memory)
    (o a : List Flt) (r : Flt) (no : List Flt) (st ep : ℕ) :
    (add_experience cfg sc mem o a r no st ep).experiences.length =
      mem.experiences.length + 1 ∧
    (add_experience cfg sc mem o a r no st ep).machine_experiences.length =
      mem.machine_experiences.length + 1 := by
  simp [add_experience]

lemma applyAdds_length_eq (cfg : Config) (sc : Scalers) (calls : List AddCall) :
    ∀ mem : Memory,
      mem.experiences.length = mem.machine_experiences.length →
      (applyAdds cfg sc mem calls).experiences.length =
        (applyAdds cfg sc mem calls).machine_experiences.length := by
  induction calls with
  | nil => intro mem h; simpa [applyAdds] using h
  | cons c cs ih =>
      intro mem h
      have hstep :
          (add_experience cfg sc mem c.observation c.action c.reward
              c.next_observation c.step c.episode).experiences.length =
            (add_experience cfg sc mem c.observation c.action c.reward
              c.next_observation c.step c.episode).machine_experiences.length := by
        simp [add_experience, h]
      have := ih (add_experience cfg sc mem c.observation c.action c.reward
        c.next_observation c.step c.episode) hstep
      simpa [applyAdds] using this

/-- C2: for every sequence of add_experience calls starting from reset,
after each call (equivalently, after each prefix of the call sequence)
the raw log and the machine log have the same length. -/
theorem C2_add_preserves_length_equality (cfg : Config) (sc : Scalers)
    (calls : List AddCall) (k : ℕ) :
    (applyAdds cfg sc (Memory.reset initMemory) (calls.take k)).experiences.length =
      (applyAdds cfg sc (Memory.reset initMemory) (calls.take k)).machine_experiences.length := by
  apply applyAdds_length_eq
  simp [Memory.reset, initMemory]

lemma terminalCheck_false (xs : List Flt) : terminalCheck xs = false := by
  unfold terminalCheck
  by_cases h : npAllTruthy xs = true
  · norm_num [h]
  · norm_num [h]

/-- C3 (code bug): the terminal sentinel is NOT copied through; the
condition `exp[3].all() == -999999` compares a boolean with -999999 and
is always false, so even a sentinel next observation such as
`[-999999]` is passed to the scaling collaborator.  The first conjunct
shows the guard is identically false; the second evaluates
make_machine_experience on a sentinel record and shows the stored next
observation is the scaled sentinel, for every configuration and every
scaling function. -/
theorem C3_sentinel_is_scaled_bug :
    (∀ xs : List Flt, terminalCheck xs = false) ∧
    (∀ (cfg : Config) (sc : Scalers) (obs act : List Flt) (r : Flt)
        (st ep : ℕ),
      (make_machine_experience cfg sc
          ⟨obs, act, r, [Flt.num (-999999)], st, ep⟩).next_observation =
        sc.scale_array [Flt.num (-999999)] cfg.observation_space) := by
  constructor
  · exact terminalCheck_false
  · intro cfg sc obs act r st ep
    simp [make_machine_experience, terminalCheck_false]

/-- numpy sum of a float vector (used by the return statistics). -/
def npSum (xs : List Flt) : Flt :=
  xs.foldl Flt.add (Flt.num 0)

/-- numpy mean: sum divided by length; the mean of an empty vector is
NaN, matching numpy. -/
def npMean (xs : List Flt) : Flt :=
  (npSum xs).div (Flt.num xs.length)

/-- numpy min over a vector; NaN propagates.  numpy raises on an empty
vector, which in this development is only reached on paths that
subsequently fail anyway, so the empty case carries a placeholder. -/
def npMin : List Flt → Flt
  | [] => Flt.nan
  | x :: xs => xs.foldl Flt.fmin x

/-- numpy max over a vector; NaN propagates; empty case as in npMin. -/
def npMax : List Flt → Flt
  | [] => Flt.nan
  | x :: xs => xs.foldl Flt.fmax x

/-- The backward loop of calculate_returns, lines 188-193 of memory.py:
iterate over the reversed reward list, update `R = r + discount * R`,
and push each R onto the front of the accumulator. -/
def calcReturnsLoop (γ : Flt) : List Flt → Flt → List Flt → List Flt
  | [], _, acc => acc
  | r :: rest, R, acc =>
      calcReturnsLoop γ rest (r.add (γ.mul R)) (r.add (γ.mul R) :: acc)

/-- The raw Monte Carlo returns computed by calculate_returns before
any scaling policy: run the backward loop over the reversed rewards
starting from R = 0. -/
def rawReturns (γ : Flt) (rewards : List Flt) : List Flt :=
  calcReturnsLoop γ rewards.reverse (Flt.num 0) []

/-- Specification-side definition of the discounted returns, written
from the words of the spec: one return per step, in forward order,
where each return is the reward plus discount times the return of the
following step, and the return beyond the last step is 0. -/
def mcReturnsSpec (γ : Flt) : List Flt → List Flt
  | [] => []
  | r :: rest =>
      r.add (γ.mul ((mcReturnsSpec γ rest).headD (Flt.num 0))) ::
        mcReturnsSpec γ rest

/-- Generalization of mcReturnsSpec with an arbitrary seed return
beyond the last step. -/
def mcFrom (γ R : Flt) : List Flt → List Flt
  | [] => []
  | r :: rest =>
      r.add (γ.mul ((mcFrom γ R rest).headD R)) :: mcFrom γ R rest

lemma calcReturnsLoop_acc (γ : Flt) (l : List Flt) :
    ∀ R acc, calcReturnsLoop γ l R acc = calcReturnsLoop γ l R [] ++ acc := by
  induction l with
  | nil => intro R acc; simp [calcReturnsLoop]
  | cons r rest ih =>
      intro R acc
      rw [calcReturnsLoop, calcReturnsLoop, ih, ih (r.add (γ.mul R)) [_]]
      simp

lemma headD_append_singleton (l : List Flt) (a d : Flt) :
    (l ++ [a]).headD d = l.headD a := by
  cases l <;> simp

lemma mcFrom_append (γ R x : Flt) (xs : List Flt) :
    mcFrom γ R (xs ++ [x]) =
      mcFrom γ (x.add (γ.mul R)) xs ++ [x.add (γ.mul R)] := by
  induction xs with
  | nil => simp [mcFrom]
  | cons y ys ih =>
      rw [List.cons_append, mcFrom, ih, mcFrom]
      rw [headD_append_singleton]
      simp

lemma calcReturnsLoop_eq_mcFrom (γ : Flt) (rs : List Flt) :
    ∀ R, calcReturnsLoop γ rs.reverse R [] = mcFrom γ R rs := by
  induction rs using List.reverseRecOn with
  | nil => intro R; simp [calcReturnsLoop, mcFrom]
  | append_singleton xs x ih =>
      intro R
      rw [List.reverse_append, List.reverse_singleton, List.singleton_append,
        calcReturnsLoop, calcReturnsLoop_acc, ih, mcFrom_append]

lemma mcFrom_zero (γ : Flt) (rs : List Flt) :
    mcFrom γ (Flt.num 0) rs = mcReturnsSpec γ rs := by
  induction rs with
  | nil => simp [mcFrom, mcReturnsSpec]
  | cons r rest ih => rw [mcFrom, mcReturnsSpec, ih]

lemma rawReturns_eq_spec (γ : Flt) (rewards : List Flt) :
    rawReturns γ rewards = mcReturnsSpec γ rewards := by
  rw [rawReturns, calcReturnsLoop_eq_mcFrom, mcFrom_zero]

lemma mcReturnsSpec_length (γ : Flt) (rs : List Flt) :
    (mcReturnsSpec γ rs).length = rs.length := by
  induction rs with
  | nil => simp [mcReturnsSpec]
  | cons r rest ih => simp [mcReturnsSpec, ih]

lemma rawReturns_length (γ : Flt) (rs : List Flt) :
    (rawReturns γ rs).length = rs.length := by
  rw [rawReturns_eq_spec, mcReturnsSpec_length]

/-- The return-processing dispatch of calculate_returns, lines 206-211
of memory.py: three independent if statements keyed on the
process_return string, applied in sequence to the raw returns.  The
numpy standard deviation is kept abstract (it is irrational in
general); no verified claim depends on its value. -/
def processReturns (cfg : Config) (std : List Flt → Flt)
    (rtns : List Flt) : List Flt :=
  let r1 :=
    if cfg.process_return = "scale_only" then
      rtns.map (fun x => x.div (std rtns))
    else rtns
  let r2 :=
    if cfg.process_return = "mean_scale" then
      r1.map (fun x => (x.sub (npMean r1)).div (std r1))
    else r1
  let r3 :=
    if cfg.process_return = "min_max" then
      r2.map (fun x => (x.sub (npMin r2)).div ((npMax r2).sub (npMin r2)))
    else r2
  r3

lemma processReturns_length (cfg : Config) (std : List Flt → Flt)
    (rtns : List Flt) :
    (processReturns cfg std rtns).length = rtns.length := by
  unfold processReturns
  split <;> split <;> split <;> simp

/-- Indices of the machine log records whose episode field equals the
queried episode number: the translation of masking the index array
`np.arange(len)` with the boolean episode mask, lines 226-228. -/
def maskIdxs (n : ℕ) : ℕ → List MachineExperience → List ℕ
  | _, [] => []
  | i, e :: es =>
      if e.episode = n then i :: maskIdxs n (i + 1) es
      else maskIdxs n (i + 1) es

/-- The write-back records: the episode records zipped with their
processed returns, each record receiving its return in field 6
(lines 219-223 of memory.py). -/
def setRets (es : List MachineExperience) (rs : List Flt) :
    List MachineExperience :=
  (es.zip rs).map (fun p => { p.1 with ret := some p.2 })

/-- Memory.calculate_returns: select the records of the episode from
the machine log, compute the discounted returns by the backward loop,
apply the configured scaling policy, and splice the records with
returns filled in back over the index range from the first to the last
masked index.  Failure paths of the source (IndexError on an absent
episode, ValueError from numpy min on an empty selection) are modelled
as `none`. -/
def calculate_returns (cfg : Config) (std : List Flt → Flt)
    (mem : Memory) (episode_number : ℕ) : Option Memory :=
  let all := mem.machine_experiences
  let episode_experiences := all.filter (fun e => e.episode = episode_number)
  let rewards := episode_experiences.map (fun e => e.reward)
  let rtns := processReturns cfg std (rawReturns cfg.discount rewards)
  if episode_experiences.length = rtns.length then
    let new_exps := setRets episode_experiences rtns
    match maskIdxs episode_number 0 all with
    | [] => none
    | i0 :: rest =>
        let start := i0
        let stop := rest.getLastD i0 + 1
        let spliced := all.take start ++ new_exps ++ all.drop stop
        some { mem with machine_experiences := spliced }
  else none

lemma maskIdxs_append (n : ℕ) (l1 l2 : List MachineExperience) :
    ∀ i, maskIdxs n i (l1 ++ l2) =
      maskIdxs n i l1 ++ maskIdxs n (i + l1.length) l2 := by
  induction l1 with
  | nil => intro i; simp [maskIdxs]
  | cons e es ih =>
      intro i
      have harith : i + 1 + es.length = i + (es.length + 1) := by omega
      by_cases h : e.episode = n
      · rw [List.cons_append, maskIdxs, if_pos h, maskIdxs, if_pos h,
          ih (i + 1), List.cons_append, List.length_cons, ← harith]
      · rw [List.cons_append, maskIdxs, if_neg h, maskIdxs, if_neg h,
          ih (i + 1), List.length_cons, ← harith]

lemma maskIdxs_nil (n : ℕ) (l : List MachineExperience)
    (h : ∀ e ∈ l, e.episode ≠ n) : ∀ i, maskIdxs n i l = [] := by
  induction l with
  | nil => intro i; rfl
  | cons e es ih =>
      intro i
      rw [maskIdxs, if_neg (h e (by simp))]
      exact ih (fun x hx => h x (by simp [hx])) (i + 1)

lemma maskIdxs_all (n : ℕ) (l : List MachineExperience)
    (h : ∀ e ∈ l, e.episode = n) :
    ∀ i, maskIdxs n i l = List.range' i l.length := by
  induction l with
  | nil => intro i; rfl
  | cons e es ih =>
      intro i
      rw [maskIdxs, if_pos (h e (by simp)),
        ih (fun x hx => h x (by simp [hx])) (i + 1),
        List.length_cons, List.range'_succ]

lemma range'_getLastD (k : ℕ) :
    ∀ s d, (List.range' s (k + 1)).getLastD d = s + k := by
  induction k with
  | zero => intro s d; simp [List.range'_succ]
  | succ k ih =>
      intro s d
      rw [List.range'_succ, List.getLastD_cons, ih]
      omega

/-- Core behaviour of calculate_returns on a memory whose machine log
splits as pre ++ mid ++ post with exactly the mid block belonging to
the queried episode: the result replaces mid by the same records with
their processed returns filled in and keeps pre and post intact. -/
lemma calculate_returns_split (cfg : Config) (std : List Flt → Flt)
    (mem : Memory) (n : ℕ) (pre mid post : List MachineExperience)
    (hsplit : mem.machine_experiences = pre ++ mid ++ post)
    (hpre : ∀ e ∈ pre, e.episode ≠ n)
    (hmid : ∀ e ∈ mid, e.episode = n)
    (hpost : ∀ e ∈ post, e.episode ≠ n)
    (hne : mid ≠ []) :
    calculate_returns cfg std mem n =
      some { mem with machine_experiences :=
        pre ++ setRets mid (processReturns cfg std
          (rawReturns cfg.discount (mid.map (fun e => e.reward)))) ++ post } := by
  obtain ⟨m0, mid2, rfl⟩ := List.exists_cons_of_ne_nil hne
  have hf1 : pre.filter (fun e => e.episode = n) = [] :=
    List.filter_eq_nil_iff.mpr (by intro a ha; simpa using hpre a ha)
  have hf3 : post.filter (fun e => e.episode = n) = [] :=
    List.filter_eq_nil_iff.mpr (by intro a ha; simpa using hpost a ha)
  have hf2 : (m0 :: mid2).filter (fun e => e.episode = n) = m0 :: mid2 :=
    List.filter_eq_self.mpr (by intro a ha; simpa using hmid a ha)
  have hfilter :
      (pre ++ (m0 :: mid2) ++ post).filter (fun e => e.episode = n) =
        m0 :: mid2 := by
    rw [List.filter_append, List.filter_append, hf1, hf2, hf3]
    simp
  have hmask :
      maskIdxs n 0 (pre ++ (m0 :: mid2) ++ post) =
        pre.length :: List.range' (pre.length + 1) mid2.length := by
    rw [maskIdxs_append, maskIdxs_append, maskIdxs_nil n pre hpre,
      maskIdxs_nil n post hpost,
      maskIdxs_all n (m0 :: mid2) hmid, List.length_cons,
      List.range'_succ]
    simp
  have hlast :
      (List.range' (pre.length + 1) mid2.length).getLastD pre.length =
        pre.length + mid2.length := by
    cases hm : mid2.length with
    | zero => simp [List.range']
    | succ k =>
        rw [range'_getLastD]
        omega
  have hlen2 :
      (m0 :: mid2).length =
        (processReturns cfg std (rawReturns cfg.discount
          ((m0 :: mid2).map (fun e => e.reward)))).length := by
    rw [processReturns_length, rawReturns_length, List.length_map]
  have htake :
      (pre ++ (m0 :: mid2) ++ post).take pre.length = pre := by
    rw [List.append_assoc, List.take_left]
  have hdrop :
      (pre ++ (m0 :: mid2) ++ post).drop
          (pre.length + mid2.length + 1) = post := by
    have : pre.length + mid2.length + 1 = (pre ++ (m0 :: mid2)).length := by
      simp
      omega
    rw [this, List.drop_left]
  rw [calculate_returns]
  simp only [hsplit, hfilter, hmask, hlast, htake, hdrop]
  rw [if_pos hlen2]

/-- Degenerate one-dimensional space used by concrete test instances. -/
def spaceOne : Space :=
  ⟨1, Flt.num 0, Flt.num 10⟩

/-- Dummy standard deviation collaborator; never consulted when the
process_return mode is not scale_only or mean_scale. -/
def stdDummy : List Flt → Flt :=
  fun _ => Flt.nan

/-- Configuration with discount 1/2 and an unrecognized (empty)
process_return mode. -/
def cfgC1 : Config :=
  ⟨spaceOne, spaceOne, spaceOne, Flt.num (1 / 2), 10, "", ""⟩

/-- Machine record of episode 0, step i, reward 1, return unset. -/
def meC1 (i : ℕ) : MachineExperience :=
  ⟨[Flt.num i], [Flt.num 0], Flt.num 1, [Flt.num 0], i, 0, none⟩

/-- Machine log holding one 3-step episode with rewards [1, 1, 1]. -/
def memC1 : Memory :=
  ⟨[], [meC1 0, meC1 1, meC1 2], []⟩

lemma processReturns_id (cfg : Config) (std : List Flt → Flt)
    (rtns : List Flt)
    (h1 : cfg.process_return ≠ "scale_only")
    (h2 : cfg.process_return ≠ "mean_scale")
    (h3 : cfg.process_return ≠ "min_max") :
    processReturns cfg std rtns = rtns := by
  simp [processReturns, h1, h2, h3]

/-- C1: the raw returns of calculate_returns are exactly the backward
recursion R = reward + discount * R started from 0 (stated as agreement
with the spec-side definition mcReturnsSpec, one return per step in
forward order), and on a 3-step episode with rewards [1, 1, 1] and
discount 1/2 under an unrecognized process_return the written-back
returns are [1.75, 1.5, 1.0]. -/
theorem C1_backward_recursion :
    (∀ (γ : Flt) (rewards : List Flt),
        rawReturns γ rewards = mcReturnsSpec γ rewards) ∧
    ((calculate_returns cfgC1 stdDummy memC1 0).map
        (fun m => m.machine_experiences.map (fun e => e.ret)) =
      some [some (Flt.num (7 / 4)), some (Flt.num (3 / 2)),
        some (Flt.num 1)]) := by
  constructor
  · exact rawReturns_eq_spec
  · have h := calculate_returns_split cfgC1 stdDummy memC1 0
      [] [meC1 0, meC1 1, meC1 2] [] rfl (by simp) (by decide)
      (by simp) (by simp)
    rw [h, processReturns_id _ _ _ (by decide) (by decide) (by decide),
      rawReturns_eq_spec]
    simp [mcReturnsSpec, setRets, meC1, cfgC1, Flt.add, Flt.mul]
    norm_num

/-- C9: for every process_return value other than scale_only,
mean_scale and min_max, calculate_returns writes back the raw
discounted returns unchanged. -/
theorem C9_unrecognized_mode_passthrough (cfg : Config)
    (std : List Flt → Flt) (mem : Memory) (n : ℕ)
    (pre mid post : List MachineExperience)
    (hsplit : mem.machine_experiences = pre ++ mid ++ post)
    (hpre : ∀ e ∈ pre, e.episode ≠ n)
    (hmid : ∀ e ∈ mid, e.episode = n)
    (hpost : ∀ e ∈ post, e.episode ≠ n)
    (hne : mid ≠ [])
    (h1 : cfg.process_return ≠ "scale_only")
    (h2 : cfg.process_return ≠ "mean_scale")
    (h3 : cfg.process_return ≠ "min_max") :
    calculate_returns cfg std mem n =
      some (Memory.mk mem.experiences
        (pre ++ setRets mid
          (rawReturns cfg.discount (mid.map (fun e => e.reward))) ++ post)
        mem.agent_stats) := by
  rw [calculate_returns_split cfg std mem n pre mid post hsplit hpre hmid
    hpost hne]
  rw [processReturns_id cfg std _ h1 h2 h3]

/-- C9 witness: the passthrough theorem applied to the concrete 3-step
memory with an empty process_return string. -/
theorem C9_unrecognized_mode_passthrough_witness :
    calculate_returns cfgC1 stdDummy memC1 0 =
      some (Memory.mk memC1.experiences
        ([] ++ setRets [meC1 0, meC1 1, meC1 2]
          (rawReturns cfgC1.discount
            ([meC1 0, meC1 1, meC1 2].map (fun e => e.reward))) ++ [])
        memC1.agent_stats) :=
  C9_unrecognized_mode_passthrough cfgC1 stdDummy memC1 0
    [] [meC1 0, meC1 1, meC1 2] []
    rfl (by simp) (by decide) (by simp) (by simp)
    (by decide) (by decide) (by decide)

/-- Equality of machine records up to the return field. -/
def sameExceptRet (a b : MachineExperience) : Prop :=
  a.observation = b.observation ∧ a.action = b.action ∧
    a.reward = b.reward ∧ a.next_observation = b.next_observation ∧
    a.step = b.step ∧ a.episode = b.episode

instance instDecSameExceptRet (a b : MachineExperience) :
    Decidable (sameExceptRet a b) := by
  unfold sameExceptRet
  infer_instance

lemma getD_three_left {α : Type} (a b c : List α) (d : α) (i : ℕ)
    (h : i < a.length) : (a ++ b ++ c).getD i d = a.getD i d := by
  rw [List.getD_append _ _ _ _ (by rw [List.length_append]; omega),
    List.getD_append _ _ _ _ h]

lemma getD_three_mid {α : Type} (a b c : List α) (d : α) (i : ℕ)
    (h1 : a.length ≤ i) (h2 : i - a.length < b.length) :
    (a ++ b ++ c).getD i d = b.getD (i - a.length) d := by
  rw [List.getD_append _ _ _ _ (by rw [List.length_append]; omega),
    List.getD_append_right _ _ _ _ h1]

lemma getD_three_right {α : Type} (a b c : List α) (d : α) (i : ℕ)
    (h1 : a.length + b.length ≤ i) :
    (a ++ b ++ c).getD i d = c.getD (i - a.length - b.length) d := by
  rw [List.getD_append_right _ _ _ _ (by rw [List.length_append]; omega),
    List.length_append]
  congr 1
  omega

lemma setRets_length (es : List MachineExperience) (rs : List Flt) :
    (setRets es rs).length = min es.length rs.length := by
  simp [setRets]

lemma setRets_getD (es : List MachineExperience) (rs : List Flt) (j : ℕ)
    (h1 : j < es.length) (h2 : j < rs.length) :
    (setRets es rs).getD j dummyME =
      { es.getD j dummyME with ret := some (rs.getD j Flt.nan) } := by
  have hz : j < (setRets es rs).length := by
    rw [setRets_length]
    omega
  rw [List.getD_eq_getElem _ _ hz, List.getD_eq_getElem _ _ h1,
    List.getD_eq_getElem _ _ h2]
  simp [setRets, List.getElem_zip]

/-- C6: when the records of an episode form a contiguous (nonempty)
index range of the machine log, calculate_returns succeeds and mutates
only the return field of the records in that range: the raw log and
agent_stats are untouched, the machine log length is unchanged, every
record outside the range is unchanged, and every record inside the
range agrees with the old one on all non-return fields. -/
theorem C6_writeback_frame (cfg : Config) (std : List Flt → Flt)
    (mem : Memory) (n : ℕ) (pre mid post : List MachineExperience)
    (hsplit : mem.machine_experiences = pre ++ mid ++ post)
    (hpre : ∀ e ∈ pre, e.episode ≠ n)
    (hmid : ∀ e ∈ mid, e.episode = n)
    (hpost : ∀ e ∈ post, e.episode ≠ n)
    (hne : mid ≠ []) :
    ∃ mem2, calculate_returns cfg std mem n = some mem2 ∧
      mem2.experiences = mem.experiences ∧
      mem2.agent_stats = mem.agent_stats ∧
      mem2.machine_experiences.length = mem.machine_experiences.length ∧
      (∀ i, i < pre.length ∨ pre.length + mid.length ≤ i →
        mem2.machine_experiences.getD i dummyME =
          mem.machine_experiences.getD i dummyME) ∧
      (∀ i, pre.length ≤ i → i < pre.length + mid.length →
        sameExceptRet (mem2.machine_experiences.getD i dummyME)
          (mem.machine_experiences.getD i dummyME)) := by
  have hrl :
      (processReturns cfg std (rawReturns cfg.discount
        (mid.map (fun e => e.reward)))).length = mid.length := by
    rw [processReturns_length, rawReturns_length, List.length_map]
  have hsr :
      (setRets mid (processReturns cfg std (rawReturns cfg.discount
        (mid.map (fun e => e.reward))))).length = mid.length := by
    rw [setRets_length, hrl, Nat.min_self]
  refine ⟨_, calculate_returns_split cfg std mem n pre mid post hsplit
    hpre hmid hpost hne, rfl, rfl, ?_, ?_, ?_⟩
  · simp [hsplit, List.length_append, hsr]
  · intro i hi
    dsimp only
    rw [hsplit]
    rcases hi with hlt | hge
    · rw [getD_three_left _ _ _ _ _ hlt, getD_three_left _ _ _ _ _ hlt]
    · rw [getD_three_right _ _ _ _ _ (by rw [hsr]; omega),
        getD_three_right _ _ _ _ _ (by omega), hsr]
  · intro i h1 h2
    dsimp only
    rw [hsplit]
    have hj : i - pre.length < mid.length := by omega
    rw [getD_three_mid _ _ _ _ _ h1 (by rw [hsr]; omega),
      getD_three_mid _ _ _ _ _ h1 hj,
      setRets_getD _ _ _ hj (by omega)]
    simp [sameExceptRet]

/-- Machine record with constant numeric payload, episode ep, step i. -/
def meEp (ep i : ℕ) : MachineExperience :=
  ⟨[Flt.num 1], [Flt.num 1], Flt.num 1, [Flt.num 1], i, ep, none⟩

/-- Machine log with three one-step episodes 0, 1 and 2. -/
def memC6 : Memory :=
  ⟨[], [meEp 0 0, meEp 1 0, meEp 2 0], []⟩

/-- C6 witness: the frame theorem applied to the concrete three-episode
log for episode 1, whose single record sits at index 1. -/
theorem C6_writeback_frame_witness :
    ∃ mem2, calculate_returns cfgC1 stdDummy memC6 1 = some mem2 ∧
      mem2.experiences = memC6.experiences ∧
      mem2.agent_stats = memC6.agent_stats ∧
      mem2.machine_experiences.length =
        memC6.machine_experiences.length ∧
      (∀ i, i < 1 ∨ 2 ≤ i →
        mem2.machine_experiences.getD i dummyME =
          memC6.machine_experiences.getD i dummyME) ∧
      (∀ i, 1 ≤ i → i < 2 →
        sameExceptRet (mem2.machine_experiences.getD i dummyME)
          (memC6.machine_experiences.getD i dummyME)) :=
  C6_writeback_frame cfgC1 stdDummy memC6 1
    [meEp 0 0] [meEp 1 0] [meEp 2 0]
    rfl (by decide) (by decide) (by decide) (by decide)

/-- Rational-level version of the backward return recursion, used to
reason about episodes whose rewards are all numeric. -/
def mcQ (γ : ℚ) : List ℚ → List ℚ
  | [] => []
  | r :: rest => (r + γ * ((mcQ γ rest).headD 0)) :: mcQ γ rest

/-- Rational minimum of a vector computed the numpy way (foldl from
the head); 0 on the empty vector, which is never consulted. -/
def qListMin : List ℚ → ℚ
  | [] => 0
  | x :: xs => xs.foldl min x

/-- Rational maximum of a vector, as in qListMin. -/
def qListMax : List ℚ → ℚ
  | [] => 0
  | x :: xs => xs.foldl max x

lemma headD_map_num (l : List ℚ) (d : ℚ) :
    (l.map Flt.num).headD (Flt.num d) = Flt.num (l.headD d) := by
  cases l <;> simp

lemma mcReturnsSpec_map_num (γ : ℚ) (rs : List ℚ) :
    mcReturnsSpec (Flt.num γ) (rs.map Flt.num) = (mcQ γ rs).map Flt.num := by
  induction rs with
  | nil => simp [mcReturnsSpec, mcQ]
  | cons r rest ih =>
      rw [List.map_cons, mcReturnsSpec, mcQ, ih, headD_map_num]
      simp [Flt.add, Flt.mul]

lemma foldl_fmin_map (xs : List ℚ) :
    ∀ a : ℚ, (xs.map Flt.num).foldl Flt.fmin (Flt.num a) =
      Flt.num (xs.foldl min a) := by
  induction xs with
  | nil => intro a; simp
  | cons x l ih => intro a; simp [Flt.fmin, ih]

lemma foldl_fmax_map (xs : List ℚ) :
    ∀ a : ℚ, (xs.map Flt.num).foldl Flt.fmax (Flt.num a) =
      Flt.num (xs.foldl max a) := by
  induction xs with
  | nil => intro a; simp
  | cons x l ih => intro a; simp [Flt.fmax, ih]

lemma npMin_map_num (x : ℚ) (xs : List ℚ) :
    npMin ((x :: xs).map Flt.num) = Flt.num (qListMin (x :: xs)) := by
  rw [List.map_cons, npMin, foldl_fmin_map, qListMin]

lemma npMax_map_num (x : ℚ) (xs : List ℚ) :
    npMax ((x :: xs).map Flt.num) = Flt.num (qListMax (x :: xs)) := by
  rw [List.map_cons, npMax, foldl_fmax_map, qListMax]

lemma foldl_min_le_init (l : List ℚ) : ∀ a : ℚ, l.foldl min a ≤ a := by
  induction l with
  | nil => intro a; simp
  | cons x xs ih =>
      intro a
      calc (x :: xs).foldl min a = xs.foldl min (min a x) := rfl
        _ ≤ min a x := ih (min a x)
        _ ≤ a := min_le_left a x

lemma foldl_min_le_mem (l : List ℚ) (y : ℚ) (hy : y ∈ l) :
    ∀ a : ℚ, l.foldl min a ≤ y := by
  induction l with
  | nil => cases hy
  | cons x xs ih =>
      intro a
      rcases List.mem_cons.mp hy with h | h
      · subst h
        calc (y :: xs).foldl min a = xs.foldl min (min a y) := rfl
          _ ≤ min a y := foldl_min_le_init xs (min a y)
          _ ≤ y := min_le_right a y
      · exact ih h (min a x)

lemma init_le_foldl_max (l : List ℚ) : ∀ a : ℚ, a ≤ l.foldl max a := by
  induction l with
  | nil => intro a; simp
  | cons x xs ih =>
      intro a
      calc a ≤ max a x := le_max_left a x
        _ ≤ xs.foldl max (max a x) := ih (max a x)
        _ = (x :: xs).foldl max a := rfl

lemma mem_le_foldl_max (l : List ℚ) (y : ℚ) (hy : y ∈ l) :
    ∀ a : ℚ, y ≤ l.foldl max a := by
  induction l with
  | nil => cases hy
  | cons x xs ih =>
      intro a
      rcases List.mem_cons.mp hy with h | h
      · subst h
        calc y ≤ max a y := le_max_right a y
          _ ≤ xs.foldl max (max a y) := init_le_foldl_max xs (max a y)
          _ = (y :: xs).foldl max a := rfl
      · exact ih h (max a x)

lemma qListMin_le (l : List ℚ) (y : ℚ) (hy : y ∈ l) : qListMin l ≤ y := by
  cases l with
  | nil => cases hy
  | cons x xs =>
      rcases List.mem_cons.mp hy with h | h
      · subst h; exact foldl_min_le_init xs y
      · exact foldl_min_le_mem xs y h x

lemma le_qListMax (l : List ℚ) (y : ℚ) (hy : y ∈ l) : y ≤ qListMax l := by
  cases l with
  | nil => cases hy
  | cons x xs =>
      rcases List.mem_cons.mp hy with h | h
      · subst h; exact init_le_foldl_max xs y
      · exact mem_le_foldl_max xs y h x

lemma processReturns_min_max (cfg : Config) (std : List Flt → Flt)
    (hmode : cfg.process_return = "min_max")
    (l : List ℚ) (hl : l ≠ []) (hrange : qListMin l ≠ qListMax l) :
    processReturns cfg std (l.map Flt.num) =
      l.map (fun v =>
        Flt.num ((v - qListMin l) / (qListMax l - qListMin l))) := by
  obtain ⟨x, xs, rfl⟩ := List.exists_cons_of_ne_nil hl
  unfold processReturns
  rw [hmode]
  have hso : ¬("min_max" : String) = "scale_only" := by decide
  have hms : ¬("min_max" : String) = "mean_scale" := by decide
  have hmm : ("min_max" : String) = "min_max" := rfl
  simp only [if_neg hso, if_neg hms, if_pos hmm]
  rw [npMin_map_num, npMax_map_num, List.map_map]
  apply List.map_congr_left
  intro v _
  have hne2 : qListMax (x :: xs) - qListMin (x :: xs) ≠ 0 :=
    sub_ne_zero.mpr (fun h => hrange h.symm)
  simp [Flt.sub, Flt.div, hne2]

lemma mcQ_length (g : ℚ) (l : List ℚ) : (mcQ g l).length = l.length := by
  induction l with
  | nil => simp [mcQ]
  | cons a t ih => simp [mcQ, ih]

/-- C5 (amended): for an episode processed with process_return min_max
whose discount and rewards are numeric and whose raw discounted returns
are not all equal, every written-back return is a number in [0, 1], a
step carrying the minimum raw return receives 0, and a step carrying
the maximum raw return receives 1. -/
theorem C5_min_max_unit_interval (cfg : Config) (std : List Flt → Flt)
    (mem : Memory) (n : ℕ) (pre mid post : List MachineExperience)
    (hsplit : mem.machine_experiences = pre ++ mid ++ post)
    (hpre : ∀ e ∈ pre, e.episode ≠ n)
    (hmid : ∀ e ∈ mid, e.episode = n)
    (hpost : ∀ e ∈ post, e.episode ≠ n)
    (hne : mid ≠ [])
    (hmode : cfg.process_return = "min_max")
    (γq : ℚ) (hγ : cfg.discount = Flt.num γq)
    (qs : List ℚ) (hrw : mid.map (fun e => e.reward) = qs.map Flt.num)
    (hrange : qListMin (mcQ γq qs) ≠ qListMax (mcQ γq qs)) :
    ∃ mem2, calculate_returns cfg std mem n = some mem2 ∧
      ∀ i, i < mid.length →
        ∃ q, (mem2.machine_experiences.getD (pre.length + i) dummyME).ret
            = some (Flt.num q) ∧
          0 ≤ q ∧ q ≤ 1 ∧
          ((mcQ γq qs).getD i 0 = qListMin (mcQ γq qs) → q = 0) ∧
          ((mcQ γq qs).getD i 0 = qListMax (mcQ γq qs) → q = 1) := by
  have hql : qs.length = mid.length := by
    have := congrArg List.length hrw
    simpa using this.symm
  have hqne : qs ≠ [] := by
    intro h
    subst h
    simp at hql
    exact hne (List.length_eq_zero.mp hql.symm)
  have hLne : mcQ γq qs ≠ [] := by
    cases qs with
    | nil => exact absurd rfl hqne
    | cons a l => simp [mcQ]
  have hLlen : (mcQ γq qs).length = mid.length := by
    rw [mcQ_length, hql]
  have hraw :
      rawReturns cfg.discount (mid.map fun e => e.reward) =
        (mcQ γq qs).map Flt.num := by
    rw [hγ, hrw, rawReturns_eq_spec, mcReturnsSpec_map_num]
  have hproc :
      processReturns cfg std
          (rawReturns cfg.discount (mid.map fun e => e.reward)) =
        (mcQ γq qs).map (fun v =>
          Flt.num ((v - qListMin (mcQ γq qs)) /
            (qListMax (mcQ γq qs) - qListMin (mcQ γq qs)))) := by
    rw [hraw]
    exact processReturns_min_max cfg std hmode (mcQ γq qs) hLne hrange
  refine ⟨_, calculate_returns_split cfg std mem n pre mid post hsplit
    hpre hmid hpost hne, ?_⟩
  intro i hi
  have hiL : i < (mcQ γq qs).length := by rw [hLlen]; exact hi
  have hiLm : i < ((mcQ γq qs).map (fun v =>
      Flt.num ((v - qListMin (mcQ γq qs)) /
        (qListMax (mcQ γq qs) - qListMin (mcQ γq qs))))).length := by
    rw [List.length_map]
    exact hiL
  dsimp only
  rw [hproc, getD_three_mid _ _ _ _ _ (Nat.le_add_right _ _)
      (by rw [Nat.add_sub_cancel_left, setRets_length, List.length_map,
        hLlen, Nat.min_self]; exact hi),
    Nat.add_sub_cancel_left,
    setRets_getD _ _ _ hi (by rw [List.length_map, hLlen]; exact hi),
    List.getD_eq_getElem _ _ hiLm, List.getElem_map]
  have hmem : (mcQ γq qs)[i] ∈ mcQ γq qs := List.getElem_mem hiL
  have hlow : qListMin (mcQ γq qs) ≤ (mcQ γq qs)[i] :=
    qListMin_le _ _ hmem
  have hhigh : (mcQ γq qs)[i] ≤ qListMax (mcQ γq qs) :=
    le_qListMax _ _ hmem
  have hmM : qListMin (mcQ γq qs) < qListMax (mcQ γq qs) :=
    lt_of_le_of_ne (le_trans hlow hhigh) hrange
  have hpos : (0 : ℚ) < qListMax (mcQ γq qs) - qListMin (mcQ γq qs) :=
    sub_pos.mpr hmM
  have hgetD : (mcQ γq qs).getD i 0 = (mcQ γq qs)[i] :=
    List.getD_eq_getElem _ _ hiL
  refine ⟨((mcQ γq qs)[i] - qListMin (mcQ γq qs)) /
      (qListMax (mcQ γq qs) - qListMin (mcQ γq qs)), rfl, ?_, ?_, ?_, ?_⟩
  · exact div_nonneg (sub_nonneg.mpr hlow) (le_of_lt hpos)
  · rw [div_le_one hpos]
    exact sub_le_sub_right hhigh _
  · intro hminv
    rw [hgetD] at hminv
    rw [hminv, sub_self, zero_div]
  · intro hmaxv
    rw [hgetD] at hmaxv
    rw [hmaxv]
    exact div_self (ne_of_gt hpos)

/-- Configuration selecting the min_max return policy, discount 1/2. -/
def cfgC5 : Config :=
  ⟨spaceOne, spaceOne, spaceOne, Flt.num (1 / 2), 10, "", "min_max"⟩

/-- Machine log holding a single one-step episode with reward 1. -/
def memC5 : Memory :=
  ⟨[], [meEp 0 0], []⟩

/-- C5 counterexample: on a single-step episode the return range is
zero, min_max divides zero by zero, and the written-back return is the
NaN marker, which is not the number 0 (nor any number in [0, 1]), so
the step carrying the minimum raw return is not mapped to 0. -/
theorem C5_min_max_counterexample :
    (calculate_returns cfgC5 stdDummy memC5 0).map
        (fun m => m.machine_experiences.map (fun e => e.ret)) =
      some [some Flt.nan] ∧ ∀ q : ℚ, Flt.nan ≠ Flt.num q := by
  constructor
  · have h := calculate_returns_split cfgC5 stdDummy memC5 0
      [] [meEp 0 0] [] rfl (by simp) (by decide) (by simp) (by simp)
    rw [h, rawReturns_eq_spec]
    simp [mcReturnsSpec, meEp, setRets, processReturns, cfgC5,
      npMin, npMax, Flt.add, Flt.mul, Flt.sub, Flt.div, Flt.fmin,
      Flt.fmax]
  · intro q h
    cases h

/-- Machine record with reward q, episode 0, step i. -/
def meR (q : ℚ) (i : ℕ) : MachineExperience :=
  ⟨[Flt.num 1], [Flt.num 1], Flt.num q, [Flt.num 1], i, 0, none⟩

/-- Configuration selecting min_max with discount 0. -/
def cfgC5w : Config :=
  ⟨spaceOne, spaceOne, spaceOne, Flt.num 0, 10, "", "min_max"⟩

/-- Machine log with one two-step episode, rewards 1 and 0. -/
def memC5w : Memory :=
  ⟨[], [meR 1 0, meR 0 1], []⟩

/-- C5 witness: the amended min_max theorem applied to a two-step
episode with rewards 1 and 0 under discount 0. -/
theorem C5_min_max_unit_interval_witness :
    ∃ mem2, calculate_returns cfgC5w stdDummy memC5w 0 = some mem2 ∧
      ∀ i, i < 2 →
        ∃ q, (mem2.machine_experiences.getD (0 + i) dummyME).ret
            = some (Flt.num q) ∧
          0 ≤ q ∧ q ≤ 1 ∧
          ((mcQ 0 [1, 0]).getD i 0 = qListMin (mcQ 0 [1, 0]) → q = 0) ∧
          ((mcQ 0 [1, 0]).getD i 0 = qListMax (mcQ 0 [1, 0]) → q = 1) :=
  C5_min_max_unit_interval cfgC5w stdDummy memC5w 0
    [] [meR 1 0, meR 0 1] []
    rfl (by simp) (by decide) (by simp) (by simp) rfl
    0 rfl [1, 0] rfl
    (by norm_num [mcQ, qListMin, qListMax])

/-- Two-dimensional numpy array: a shape and row-major data. -/
structure Arr where
  rows : ℕ
  cols : ℕ
  data : List Flt
deriving DecidableEq, Repr

/-- np.reshape(-1, d): infer the row count from the element count;
fails when d is 0 or does not divide the element count. -/
def reshapeInfer (data : List Flt) (d : ℕ) : Option Arr :=
  if d ≠ 0 ∧ data.length % d = 0 then
    some ⟨data.length / d, d, data⟩
  else none

/-- np.reshape(r, d) with an explicit shape; fails unless the element
count matches exactly. -/
def reshapeExact (data : List Flt) (r d : ℕ) : Option Arr :=
  if data.length = r * d then some ⟨r, d, data⟩ else none

/-- Whether some entry of a vector is the NaN marker. -/
def hasNan (xs : List Flt) : Bool :=
  xs.any (fun x => x.isnan)

/-- Memory.get_episode_batch: select the records of one episode from
both logs in order, build the observation, action and return arrays,
assert the shapes agree and that no array contains NaN.  Python
failure modes are mapped to error values: the log-length assert, the
column indexing of an empty record array, impossible reshapes, and the
isnan TypeError on a returns column still holding None. -/
def get_episode_batch (cfg : Config) (mem : Memory) (episode_number : ℕ)
    (scaled_actions : Bool) : Except String (Arr × Arr × Arr) :=
  if mem.experiences.length ≠ mem.machine_experiences.length then
    .error "AssertionError: log length mismatch"
  else if mem.machine_experiences.isEmpty then
    .error "IndexError: cannot column-index an empty record array"
  else
    let pairs := (mem.experiences.zip mem.machine_experiences).filter
      (fun p => p.2.episode = episode_number)
    let observations := pairs.map (fun p => p.2.observation)
    let actions := pairs.map (fun p =>
      if scaled_actions then p.2.action else p.1.action)
    let rets := pairs.map (fun p => p.2.ret)
    match reshapeInfer observations.flatten cfg.observation_space.dims,
      reshapeInfer actions.flatten cfg.action_space.dims with
    | some obsArr, some actArr =>
        if obsArr.rows ≠ actArr.rows then
          .error "AssertionError: observation and action row counts"
        else if obsArr.rows ≠ rets.length then
          .error "AssertionError: observation and return row counts"
        else if hasNan obsArr.data then
          .error "AssertionError: nan in observations"
        else if hasNan actArr.data then
          .error "AssertionError: nan in actions"
        else if rets.any (fun o => o.isNone) then
          .error "TypeError: isnan on an object array of returns"
        else
          let retsData := rets.map (fun o => o.getD Flt.nan)
          if hasNan retsData then
            .error "AssertionError: nan in returns"
          else .ok (obsArr, actArr, ⟨retsData.length, 1, retsData⟩)
    | _, _ => .error "ValueError: cannot reshape"

/-- Memory.get_random_batch: sample_size is the minimum of batch_size
and the FULL machine log length; the sampling window is the last
memory_length records (Python slice [-L:], the whole list when L = 0);
indices drawn by np.random.randint are a parameter, with its contract
(size many values, all below the window length) made explicit as
guards; then the four arrays are built, reshaped to sample_size rows
and NaN-checked. -/
def randomSampleCore (cfg : Config) (sample_size : ℕ)
    (mach_memory : List MachineExperience) (indicies : List ℕ) :
    Except String (Arr × Arr × Arr × Arr) :=
  if mach_memory.isEmpty then
    .error "ValueError: randint with low >= high"
  else if indicies.length ≠ sample_size then
    .error "randint contract: wrong number of samples"
  else if ¬ (indicies.all (fun i => i < mach_memory.length)) then
    .error "randint contract: index out of range"
  else
    let batch := indicies.map (fun i => mach_memory.getD i dummyME)
    let obs := batch.map (fun e => e.observation)
    let acts := batch.map (fun e => e.action)
    let rwrds := batch.map (fun e => e.reward)
    let next_obs := batch.map (fun e => e.next_observation)
    match reshapeExact obs.flatten sample_size cfg.observation_space.dims,
      reshapeExact acts.flatten sample_size cfg.action_space.dims,
      reshapeExact rwrds sample_size 1,
      reshapeExact next_obs.flatten sample_size
        cfg.observation_space.dims with
    | some o, some a, some r, some no =>
        if hasNan o.data then
          .error "AssertionError: nan in observations"
        else if hasNan a.data then
          .error "AssertionError: nan in actions"
        else if hasNan r.data then
          .error "AssertionError: nan in rewards"
        else if hasNan no.data then
          .error "AssertionError: nan in next observations"
        else .ok (o, a, r, no)
    | _, _, _, _ => .error "ValueError: cannot reshape"

/-- Memory.get_random_batch: sample_size is computed from the FULL
machine log length, the sampling window is the trailing memory_length
records, and the sampling itself is randomSampleCore. -/
def get_random_batch (cfg : Config) (mem : Memory) (batch_size : ℕ)
    (indicies : List ℕ) : Except String (Arr × Arr × Arr × Arr) :=
  randomSampleCore cfg (min batch_size mem.machine_experiences.length)
    (if cfg.memory_length = 0 then mem.machine_experiences
      else mem.machine_experiences.drop
        (mem.machine_experiences.length - cfg.memory_length))
    indicies

lemma reshapeExact_inv {x : List Flt} {r d : ℕ} {A : Arr}
    (h : reshapeExact x r d = some A) : A = ⟨r, d, x⟩ := by
  unfold reshapeExact at h
  split at h
  · exact (Option.some.injEq _ _).mp h.symm
  · exact Option.noConfusion h

lemma randomSampleCore_ok (cfg : Config) (s : ℕ)
    (W : List MachineExperience) (idx : List ℕ)
    (b : Arr × Arr × Arr × Arr)
    (h : randomSampleCore cfg s W idx = .ok b) :
    b.1.rows = s ∧ b.2.1.rows = s ∧ b.2.2.1.rows = s ∧
      b.2.2.2.rows = s ∧ idx.length = s ∧
      (∀ i ∈ idx, i < W.length) ∧
      hasNan b.1.data = false ∧ hasNan b.2.1.data = false ∧
      hasNan b.2.2.1.data = false ∧ hasNan b.2.2.2.data = false := by
  simp only [randomSampleCore] at h
  split at h
  · exact Except.noConfusion h
  split at h
  · exact Except.noConfusion h
  split at h
  · exact Except.noConfusion h
  split at h
  · split at h
    · exact Except.noConfusion h
    split at h
    · exact Except.noConfusion h
    split at h
    · exact Except.noConfusion h
    split at h
    · exact Except.noConfusion h
    rename_i hE hL hA x1 x2 x3 x4 o a r no heq1 heq2 heq3 heq4
      hn1 hn2 hn3 hn4
    cases h
    obtain rfl := reshapeExact_inv heq1
    obtain rfl := reshapeExact_inv heq2
    obtain rfl := reshapeExact_inv heq3
    obtain rfl := reshapeExact_inv heq4
    refine ⟨rfl, rfl, rfl, rfl, not_ne_iff.mp hL, ?_, ?_, ?_, ?_, ?_⟩
    · intro i hi
      have hA2 : idx.all (fun i => decide (i < W.length)) = true := by
        by_contra hc
        exact hA (by simpa using hc)
      have := List.all_eq_true.mp hA2 i hi
      simpa using this
    · simpa using hn1
    · simpa using hn2
    · simpa using hn3
    · simpa using hn4
  · exact Except.noConfusion h

/-- C7: the two batch getters return normally only when none of the
arrays they produce contains a NaN value (equivalently, a batch
containing NaN always raises before being returned). -/
theorem C7_nan_guard :
    (∀ (cfg : Config) (mem : Memory) (n : ℕ) (sa : Bool)
        (b : Arr × Arr × Arr),
      get_episode_batch cfg mem n sa = .ok b →
        hasNan b.1.data = false ∧ hasNan b.2.1.data = false ∧
          hasNan b.2.2.data = false) ∧
    (∀ (cfg : Config) (mem : Memory) (bs : ℕ) (idx : List ℕ)
        (b : Arr × Arr × Arr × Arr),
      get_random_batch cfg mem bs idx = .ok b →
        hasNan b.1.data = false ∧ hasNan b.2.1.data = false ∧
          hasNan b.2.2.1.data = false ∧ hasNan b.2.2.2.data = false) := by
  constructor
  · intro cfg mem n sa b h
    simp only [get_episode_batch] at h
    repeat any_goals (first
      | exact Except.noConfusion h
      | split at h)
    all_goals cases h
    all_goals exact ⟨by simp_all, by simp_all, by simp_all⟩
  · intro cfg mem bs idx b h
    simp only [get_random_batch] at h
    have hc := randomSampleCore_ok _ _ _ _ _ h
    exact ⟨hc.2.2.2.2.2.2.1, hc.2.2.2.2.2.2.2.1,
      hc.2.2.2.2.2.2.2.2.1, hc.2.2.2.2.2.2.2.2.2⟩

/-- Raw record matching meRet, used by concrete batch runs. -/
def expC7 : Experience :=
  ⟨[Flt.num 1], [Flt.num 1], Flt.num 1, [Flt.num 1], 0, 0⟩

/-- Machine record of episode 0 with its return already set. -/
def meRet : MachineExperience :=
  ⟨[Flt.num 1], [Flt.num 1], Flt.num 1, [Flt.num 1], 0, 0, some (Flt.num 1)⟩

/-- Well-formed one-record store with the return filled in. -/
def memC7 : Memory :=
  ⟨[expC7], [meRet], []⟩

/-- Configuration with a one-record sampling window. -/
def cfgC4 : Config :=
  ⟨spaceOne, spaceOne, spaceOne, Flt.num 1, 1, "", ""⟩

/-- Two-record machine log of a single episode. -/
def memC4 : Memory :=
  ⟨[], [meEp 0 0, meEp 0 1], []⟩

/-- C7 witness: both NaN-guard implications applied to concrete stores
on which the getters succeed. -/
theorem C7_nan_guard_witness :
    (hasNan [Flt.num 1] = false ∧ hasNan [Flt.num 1] = false ∧
      hasNan [Flt.num 1] = false) ∧
    (hasNan [Flt.num 1, Flt.num 1] = false ∧
      hasNan [Flt.num 1, Flt.num 1] = false ∧
      hasNan [Flt.num 1, Flt.num 1] = false ∧
      hasNan [Flt.num 1, Flt.num 1] = false) :=
  ⟨C7_nan_guard.1 cfgC1 memC7 0 true
      (⟨1, 1, [Flt.num 1]⟩, ⟨1, 1, [Flt.num 1]⟩, ⟨1, 1, [Flt.num 1]⟩) rfl,
    C7_nan_guard.2 cfgC4 memC4 2 [0, 0]
      (⟨2, 1, [Flt.num 1, Flt.num 1]⟩, ⟨2, 1, [Flt.num 1, Flt.num 1]⟩,
        ⟨2, 1, [Flt.num 1, Flt.num 1]⟩, ⟨2, 1, [Flt.num 1, Flt.num 1]⟩) rfl⟩

/-- C10: on a non-empty well-formed store with nonzero space
dimensions, querying an episode number matching no record returns
normally with three aligned empty arrays of shapes
(0, observation_dim), (0, action_dim) and (0, 1). -/
theorem C10_missing_episode_empty_batch (cfg : Config) (mem : Memory)
    (n : ℕ) (sa : Bool)
    (hlen : mem.experiences.length = mem.machine_experiences.length)
    (hne : mem.machine_experiences ≠ [])
    (hobs : cfg.observation_space.dims ≠ 0)
    (hact : cfg.action_space.dims ≠ 0)
    (hmiss : ∀ e ∈ mem.machine_experiences, e.episode ≠ n) :
    get_episode_batch cfg mem n sa =
      .ok (⟨0, cfg.observation_space.dims, []⟩,
        ⟨0, cfg.action_space.dims, []⟩, ⟨0, 1, []⟩) := by
  have hfil :
      (mem.experiences.zip mem.machine_experiences).filter
        (fun p => p.2.episode = n) = [] := by
    apply List.filter_eq_nil_iff.mpr
    intro p hp
    have := (List.of_mem_zip hp).2
    simpa using hmiss p.2 this
  rw [get_episode_batch]
  rw [if_neg (by omega)]
  rw [if_neg (by simpa [List.isEmpty_iff] using hne)]
  simp only [hfil, List.map_nil, List.flatten_nil, reshapeInfer,
    List.length_nil, Nat.zero_mod, Nat.zero_div]
  rw [if_pos ⟨hobs, trivial⟩, if_pos ⟨hact, trivial⟩]
  simp [hasNan]

/-- Raw and machine one-record store used for the C10 witness. -/
def memC10 : Memory :=
  ⟨[expC7], [meEp 0 0], []⟩

/-- C10 witness: the empty-episode theorem applied to a one-record
store queried for absent episode 5. -/
theorem C10_missing_episode_empty_batch_witness :
    get_episode_batch cfgC1 memC10 5 true =
      .ok (⟨0, cfgC1.observation_space.dims, []⟩,
        ⟨0, cfgC1.action_space.dims, []⟩, ⟨0, 1, []⟩) :=
  C10_missing_episode_empty_batch cfgC1 memC10 5 true
    rfl (by simp [memC10]) (by decide) (by decide) (by decide)

/-- C4 counterexample: with two stored records, a one-record window
(memory_length 1) and batch_size 2, get_random_batch returns arrays
with 2 rows, not min(batch_size, records in window) = min(2, 1) = 1:
the sample size is computed from the full log length, not from the
window. -/
theorem C4_random_batch_counterexample :
    (get_random_batch cfgC4 memC4 2 [0, 0]).map (fun b => b.1.rows) =
      Except.ok 2 ∧
    min 2 (memC4.machine_experiences.drop
      (memC4.machine_experiences.length - cfgC4.memory_length)).length
      = 1 ∧
    (2 : ℕ) ≠ 1 := by
  refine ⟨rfl, rfl, by decide⟩

/-- C4 (amended): when get_random_batch returns, each of the four
arrays has exactly min(batch_size, total stored records) rows, and
every sampled record is one of the most recent memory_length records
of the machine log. -/
theorem C4_random_batch_rows_and_window (cfg : Config) (mem : Memory)
    (batch_size : ℕ) (idx : List ℕ) (b : Arr × Arr × Arr × Arr)
    (h : get_random_batch cfg mem batch_size idx = .ok b) :
    b.1.rows = min batch_size mem.machine_experiences.length ∧
    b.2.1.rows = min batch_size mem.machine_experiences.length ∧
    b.2.2.1.rows = min batch_size mem.machine_experiences.length ∧
    b.2.2.2.rows = min batch_size mem.machine_experiences.length ∧
    (∀ i ∈ idx,
      (if cfg.memory_length = 0 then mem.machine_experiences
        else mem.machine_experiences.drop
          (mem.machine_experiences.length - cfg.memory_length)).getD
          i dummyME ∈
        (if cfg.memory_length = 0 then mem.machine_experiences
          else mem.machine_experiences.drop
            (mem.machine_experiences.length - cfg.memory_length))) := by
  simp only [get_random_batch] at h
  have hc := randomSampleCore_ok _ _ _ _ _ h
  refine ⟨hc.1, hc.2.1, hc.2.2.1, hc.2.2.2.1, ?_⟩
  intro i hi
  have hb := hc.2.2.2.2.2.1 i hi
  rw [List.getD_eq_getElem _ _ hb]
  exact List.getElem_mem hb

/-- C4 witness: the amended theorem applied to the concrete two-record
store with window length 1 and batch size 2. -/
theorem C4_random_batch_rows_and_window_witness :
    (⟨2, 1, [Flt.num 1, Flt.num 1]⟩ : Arr).rows =
      min 2 memC4.machine_experiences.length ∧
    (⟨2, 1, [Flt.num 1, Flt.num 1]⟩ : Arr).rows =
      min 2 memC4.machine_experiences.length ∧
    (⟨2, 1, [Flt.num 1, Flt.num 1]⟩ : Arr).rows =
      min 2 memC4.machine_experiences.length ∧
    (⟨2, 1, [Flt.num 1, Flt.num 1]⟩ : Arr).rows =
      min 2 memC4.machine_experiences.length ∧
    (∀ i ∈ [0, 0],
      (if cfgC4.memory_length = 0 then memC4.machine_experiences
        else memC4.machine_experiences.drop
          (memC4.machine_experiences.length - cfgC4.memory_length)).getD
          i dummyME ∈
        (if cfgC4.memory_length = 0 then memC4.machine_experiences
          else memC4.machine_experiences.drop
            (memC4.machine_experiences.length - cfgC4.memory_length))) :=
  C4_random_batch_rows_and_window cfgC4 memC4 2 [0, 0]
    (⟨2, 1, [Flt.num 1, Flt.num 1]⟩, ⟨2, 1, [Flt.num 1, Flt.num 1]⟩,
      ⟨2, 1, [Flt.num 1, Flt.num 1]⟩, ⟨2, 1, [Flt.num 1, Flt.num 1]⟩)
    rfl

/-- pandas column sum with skipna semantics: NaN entries are ignored
and the empty sum is 0, so the result is always a number. -/
def pdSum (xs : List Flt) : ℚ :=
  xs.foldl (fun acc x =>
    match x with
    | Flt.num q => acc + q
    | Flt.nan => acc) 0

/-- Insertion into an ascending list of episode keys. -/
def insertKey (x : ℕ) : List ℕ → List ℕ
  | [] => [x]
  | y :: ys => if x ≤ y then x :: y :: ys else y :: insertKey x ys

/-- pandas groupby keys: the distinct keys in ascending order. -/
def groupKeys (l : List ℕ) : List ℕ :=
  l.dedup.foldr insertKey []

/-- Episode index of the episode-level table built by output_results
(groupby on the episode column of the step table). -/
def epIndex (mem : Memory) : List ℕ :=
  groupKeys (mem.experiences.map (fun e => e.episode))

/-- Summed reward column of the episode-level table: per episode, the
pandas sum of the raw reward column over the rows of that episode. -/
def epRewardSums (mem : Memory) : List ℚ :=
  (epIndex mem).map (fun ep =>
    pdSum ((mem.experiences.filter (fun e => e.episode = ep)).map
      (fun e => e.reward)))

/-- Rolling window size, line 392 of memory.py:
max(int(episode count * 0.1), 2); the float truncation is modelled in
exact arithmetic as floor division by 10. -/
def windowSize (n : ℕ) : ℕ :=
  max (n / 10) 2

/-- pandas Series.rolling(window, with min_periods 1 and center False)
followed by mean: entry i is the mean of the trailing entries from
index i + 1 - w through i, clipped at the start. -/
def rollingMeanTrailing (w : ℕ) (xs : List ℚ) : List ℚ :=
  (List.range xs.length).map (fun i =>
    let win := (xs.take (i + 1)).drop (i + 1 - w)
    win.sum / win.length)

/-- The rolling_mean column of the episode-level table of
output_results, lines 392-396 of memory.py. -/
def outputRollingMean (mem : Memory) : List ℚ :=
  rollingMeanTrailing (windowSize (epIndex mem).length) (epRewardSums mem)

/-- Modelled from the spec: a centered rolling mean of the summed
reward column, inclusive of partial windows (pandas center True
convention: the result at label i is the trailing value at
i + (w - 1) / 2, so the window covers indices i + (w - 1) / 2 + 1 - w
through i + (w - 1) / 2, clipped to the table; an even window has its
extra element on the left, so partial windows sit at the start). -/
def rollingMeanCentered (w : ℕ) (xs : List ℚ) : List ℚ :=
  (List.range xs.length).map (fun i =>
    let win := (xs.take (min (i + (w - 1) / 2 + 1) xs.length)).drop
      (i + (w - 1) / 2 + 1 - w)
    win.sum / win.length)

/-- Raw experience of episode ep with reward q. -/
def expR (ep : ℕ) (q : ℚ) : Experience :=
  ⟨[Flt.num 1], [Flt.num 1], Flt.num q, [Flt.num 1], 0, ep⟩

/-- Store with two one-step episodes, rewards 0 and 6. -/
def memC8 : Memory :=
  ⟨[expR 0 0, expR 1 6], [meEp 0 0, meEp 1 0], []⟩

/-- Store with 30 one-step episodes 0..29; episode 1 has reward 6 and
every other episode reward 0, so the episode-level summed rewards are
[0, 6, 0, ..., 0] and the rolling window is max(int(3.0), 2) = 3. -/
def memC8b : Memory :=
  ⟨(List.range 30).map (fun i => expR i (if i = 1 then 6 else 0)),
    (List.range 30).map (fun i => meEp i 0), []⟩

lemma take_one_eq (xs : List ℚ) (h : xs ≠ []) :
    xs.take 1 = [xs.getD 0 0] := by
  match xs with
  | [] => exact absurd rfl h
  | x :: t => simp

/-- C8 counterexample: with 30 one-step episodes whose summed rewards
are [0, 6, 0, ..., 0] (rolling window 3), the first entry of the
column produced by output_results is 0 (the trailing partial window
holds only the first sum), while the first entry of a centered rolling
mean of the same column is (0 + 6) / 2 = 3 (its partial window also
sees the second sum); so the produced column is not a centered rolling
mean. -/
theorem C8_rolling_mean_counterexample :
    (outputRollingMean memC8b).getD 0 0 = 0 ∧
    (rollingMeanCentered (windowSize (epIndex memC8b).length)
      (epRewardSums memC8b)).getD 0 0 = 3 ∧
    outputRollingMean memC8b ≠
      rollingMeanCentered (windowSize (epIndex memC8b).length)
        (epRewardSums memC8b) := by
  have hidx : epIndex memC8b = List.range 30 := by decide
  have hw : windowSize (epIndex memC8b).length = 3 := by
    rw [hidx]
    rfl
  have hsums_len : (epRewardSums memC8b).length = 30 := by
    rw [epRewardSums, hidx]
    simp
  have hnil : epRewardSums memC8b ≠ [] := by
    intro h
    rw [h] at hsums_len
    exact absurd hsums_len (by norm_num)
  have hf0 : ((memC8b.experiences.filter
      (fun e => e.episode = 0)).map (fun e => e.reward)) = [Flt.num 0] := rfl
  have hf1 : ((memC8b.experiences.filter
      (fun e => e.episode = 1)).map (fun e => e.reward)) = [Flt.num 6] := rfl
  have hs0 : (epRewardSums memC8b).getD 0 0 = 0 := by
    rw [epRewardSums, hidx]
    rw [List.getD_eq_getElem _ _ (by simp)]
    rw [List.getElem_map, List.getElem_range, hf0]
    norm_num [pdSum]
  have hs1 : (epRewardSums memC8b).getD 1 0 = 6 := by
    rw [epRewardSums, hidx]
    rw [List.getD_eq_getElem _ _ (by simp)]
    rw [List.getElem_map, List.getElem_range, hf1]
    norm_num [pdSum]
  have hv1 : (outputRollingMean memC8b).getD 0 0 = 0 := by
    rw [outputRollingMean, hw]
    have hlt : 0 < (rollingMeanTrailing 3 (epRewardSums memC8b)).length := by
      simp [rollingMeanTrailing, hsums_len]
    rw [List.getD_eq_getElem _ _ hlt]
    simp only [rollingMeanTrailing, List.getElem_map, List.getElem_range]
    norm_num
    rw [take_one_eq _ hnil, hs0]
    norm_num
  have hv2 : (rollingMeanCentered (windowSize (epIndex memC8b).length)
      (epRewardSums memC8b)).getD 0 0 = 3 := by
    rw [hw]
    have hlt : 0 < (rollingMeanCentered 3 (epRewardSums memC8b)).length := by
      simp [rollingMeanCentered, hsums_len]
    rw [List.getD_eq_getElem _ _ hlt]
    simp only [rollingMeanCentered, List.getElem_map, List.getElem_range]
    norm_num [hsums_len]
    have hb0 : (0 : ℕ) < (epRewardSums memC8b).length := by omega
    have hb1 : (1 : ℕ) < (epRewardSums memC8b).length := by omega
    rw [← List.getD_eq_getElem _ (0 : ℚ) hb0,
      ← List.getD_eq_getElem _ (0 : ℚ) hb1, hs0, hs1]
    norm_num
  refine ⟨hv1, hv2, fun heq => ?_⟩
  have h2 : (outputRollingMean memC8b).getD 0 0 =
      (rollingMeanCentered (windowSize (epIndex memC8b).length)
        (epRewardSums memC8b)).getD 0 0 := by
    rw [heq]
  rw [hv1, hv2] at h2
  norm_num at h2

lemma window_as_range_map (xs : List ℚ) (a k : ℕ) (hk : a + k ≤ xs.length) :
    (xs.take (a + k)).drop a =
      (List.range k).map (fun j => xs.getD (a + j) 0) := by
  apply List.ext_getElem
  · simp
    omega
  · intro j h1 h2
    have hj : j < k := by
      simp at h2
      exact h2
    have haj : a + j < xs.length := by omega
    rw [List.getElem_drop, List.getElem_take, List.getElem_map,
      List.getElem_range, List.getD_eq_getElem _ _ haj]

/-- C8 (amended): the rolling_mean column produced by output_results
has one entry per episode, and entry i is the TRAILING (right-aligned)
mean of the min(w, i + 1) summed rewards ending at episode position i,
with w = max(int(0.1 * episode count), 2) — partial windows appear at
the start only, and the window is not centered. -/
theorem C8_rolling_mean_is_trailing (mem : Memory) (i : ℕ)
    (hi : i < (epRewardSums mem).length) :
    (outputRollingMean mem).length = (epRewardSums mem).length ∧
    (outputRollingMean mem).getD i 0 =
      ((List.range
          (min (windowSize (epIndex mem).length) (i + 1))).map
        (fun k => (epRewardSums mem).getD
          (i + 1 - min (windowSize (epIndex mem).length) (i + 1) + k)
          0)).sum /
      (min (windowSize (epIndex mem).length) (i + 1)) := by
  constructor
  · simp [outputRollingMean, rollingMeanTrailing]
  · have hlen : i < (rollingMeanTrailing
        (windowSize (epIndex mem).length) (epRewardSums mem)).length := by
      simpa [rollingMeanTrailing] using hi
    rw [outputRollingMean, List.getD_eq_getElem _ _ hlen]
    simp only [rollingMeanTrailing, List.getElem_map, List.getElem_range]
    set w := windowSize (epIndex mem).length with hw
    set xs := epRewardSums mem with hxs
    set k := min w (i + 1) with hkdef
    set a := i + 1 - k with hadef
    have h1 : i + 1 - w = a := by omega
    have h2 : i + 1 = a + k := by omega
    have hk : a + k ≤ xs.length := by omega
    rw [h1, h2, window_as_range_map xs a k hk]
    simp

/-- C8 witness: the trailing characterization applied to the concrete
two-episode store at position 1. -/
theorem C8_rolling_mean_is_trailing_witness :
    (outputRollingMean memC8).length = (epRewardSums memC8).length ∧
    (outputRollingMean memC8).getD 1 0 =
      ((List.range
          (min (windowSize (epIndex memC8).length) (1 + 1))).map
        (fun k => (epRewardSums memC8).getD
          (1 + 1 - min (windowSize (epIndex memC8).length) (1 + 1) + k)
          0)).sum /
      (min (windowSize (epIndex memC8).length) (1 + 1)) :=
  C8_rolling_mean_is_trailing memC8 1 (by decide)
